import Mathlib

/-!
Verification of the permission-resolution logic of the get-branch-policies
repository: the permission catalogs, the bitmask access-decision rule, the
deduplicating record emission (`addPermission`), the failure behaviour of the ACL fetcher
behaviour, identity resolution from claims-style descriptors, and the
recursive group-membership expansion.

Strings from the JavaScript/PowerShell sources are modelled as `List Char`;
machine integers are modelled as `Nat` (the masks and bits in the source are
small non-negative integers). External collaborators (identity service,
group-membership service) are passed in as function parameters.
-/

namespace GetBranchPolicies

/-- Strings are modelled as lists of characters. -/
abbrev Str := List Char

/-- JavaScript `a || b` on strings: the empty string is falsy. -/
def strOr (a b : Str) : Str := if a = [] then b else a

/-- Result of the bitmask access decision. -/
inductive Access where
  | allow
  | deny
  | notSet
  deriving DecidableEq

/-- The `$gitPermissions` table of the PowerShell scripts (part_001 and
part_005): bit value to permission name, in declaration order. -/
def gitPermissions : List (Nat × Str) :=
  [(1, "Administer".toList),
   (2, "Read".toList),
   (4, "Contribute".toList),
   (8, "Force push (rewrite history, delete branches and tags)".toList),
   (16, "Create branch".toList),
   (32, "Create tag".toList),
   (64, "Manage notes".toList),
   (128, "Bypass policies when pushing".toList),
   (256, "Create repository".toList),
   (512, "Delete repository".toList),
   (1024, "Rename repository".toList),
   (2048, "Edit policies".toList),
   (4096, "Remove others\x27 locks".toList),
   (8192, "Manage permissions".toList),
   (16384, "Contribute to pull requests".toList),
   (32768, "Bypass policies when completing pull requests".toList)]

/-- The `permissions_bits` object of main.js, in the order `Object.entries`
iterates it (insertion order, since all keys are non-numeric strings). -/
def permissions_bits : List (Str × Nat) :=
  [("Bypass policies when completing pull requests".toList, 32768),
   ("Bypass policies when pushing".toList, 128),
   ("Contribute".toList, 4),
   ("Edit policies".toList, 2048),
   ("Force push (rewrite history, delete branches and tags)".toList, 8),
   ("Manage permissions".toList, 8192),
   ("Remove others\x27 locks".toList, 4096)]

/-- The `permissionsBits` object of the part_003 script, in the order
`Object.entries` iterates it (insertion order). -/
def permissionsBits : List (Str × Nat) :=
  [("Administer".toList, 8192),
   ("Read".toList, 2),
   ("Contribute".toList, 4),
   ("Force push (rewrite history, delete branches and tags)".toList, 8),
   ("Create branch".toList, 16),
   ("Create tag".toList, 32),
   ("Manage notes".toList, 64),
   ("Bypass policies when pushing".toList, 128),
   ("Create repository".toList, 256),
   ("Delete repository".toList, 512),
   ("Rename repository".toList, 1024),
   ("Edit policies".toList, 2048),
   ("Remove others\x27 locks".toList, 4096),
   ("Manage permissions".toList, 8192),
   ("Pull request contribute".toList, 16384),
   ("Bypass policies when completing pull requests".toList, 32768)]

/-- `Convert-PermissionMask` of the PowerShell scripts: Deny when
`(deny -band bit) -eq bit`, else Allow when `(allow -band bit) -eq bit`,
else Not Set. -/
def convertPermissionMask (allow deny bit : Nat) : Access :=
  if deny &&& bit = bit then .deny
  else if allow &&& bit = bit then .allow
  else .notSet

/-- Modelled from the spec: the Permission Catalog rule
`decide(allowMask, denyMask, bit)`: if `denyMask & bit == bit` then Deny,
else if `allowMask & bit == bit` then Allow, else NotSet. -/
def specDecide (allow deny bit : Nat) : Access :=
  if deny &&& bit = bit then .deny
  else if allow &&& bit = bit then .allow
  else .notSet

/-- The inline decision of part_003 `getRepositoryPermissions`: JavaScript
truthiness of `denyBits & bitValue` and `allowBits & bitValue`. -/
def decideRepoPermission (allow deny bit : Nat) : Access :=
  if deny &&& bit ≠ 0 then .deny
  else if allow &&& bit ≠ 0 then .allow
  else .notSet

lemma and_pow2_cases (d k : Nat) : d &&& 2 ^ k = 0 ∨ d &&& 2 ^ k = 2 ^ k := by
  rw [Nat.and_two_pow]
  cases d.testBit k <;> simp

lemma decideRepo_eq_spec_pow2 (allow deny k : Nat) :
    decideRepoPermission allow deny (2 ^ k) = specDecide allow deny (2 ^ k) := by
  unfold decideRepoPermission specDecide
  have hp : (2 : Nat) ^ k ≠ 0 := by positivity
  rcases and_pow2_cases deny k with hd | hd <;>
    rcases and_pow2_cases allow k with ha | ha <;>
      simp [hd, ha, hp, Ne.symm hp]

/-- The normalized identity object produced by `getIdentity` in main.js and
part_003. -/
structure ResolvedIdentity where
  descriptor : Str
  displayName : Str
  mailAddress : Str
  principalName : Str
  subjectKind : Str
  isContainer : Bool
  id : Str
  deriving DecidableEq

/-- A member object produced by `expandGroupMembers`. -/
structure Member where
  descriptor : Str
  displayName : Str
  mailAddress : Str
  subjectKind : Str
  id : Str
  deriving DecidableEq

/-- One access-control entry: the allow and deny bitmasks (JS `ace.allow || 0`
and `ace.deny || 0`). -/
structure ACE where
  allow : Nat
  deny : Nat
  deriving DecidableEq

/-- One access-control list: `acesDictionary`, identity descriptor to ACE, in
the order `Object.entries` iterates it. -/
structure ACL where
  acesDictionary : List (Str × ACE)
  deriving DecidableEq

/-- An error from the remote service. -/
structure ApiError where
  message : Str
  deriving DecidableEq

/-- `getACLs` of main.js and part_003: returns the response payload, and on
any error returns the empty list (the catch branch). -/
def getACLs (response : Except ApiError (List ACL)) : List ACL :=
  match response with
  | .ok value => value
  | .error _ => []

/-- The identity argument that `addPermission` reads fields from
(`subjectKind`, `displayName`, `principalName`, `mailAddress`); fields the
caller did not set are the empty (falsy) string. -/
structure IdentityLite where
  displayName : Str
  principalName : Str
  mailAddress : Str
  subjectKind : Str
  deriving DecidableEq

/-- An emission candidate: the arguments of one `addPermission` call in
part_003 `getRepositoryPermissions`. -/
structure Candidate where
  descriptor : Str
  identity : IdentityLite
  permission : Str
  allowDeny : Str
  source : Str
  isDirect : Bool
  deriving DecidableEq

/-- One row of the final permission list (part_003 record shape). -/
structure PermRecord where
  repository : Str
  identityType : Str
  displayName : Str
  mailAddress : Str
  descriptor : Str
  permission : Str
  allow : Str
  permissionSource : Str
  isDirectAssignment : Str
  deriving DecidableEq

/-- The mutable state captured by the `addPermission` closure: the
`processedIdentities` set and the `permissions` output array. -/
structure RunState where
  processedIdentities : List Str
  permissions : List PermRecord
  deriving DecidableEq

/-- The deduplication key `${descriptor}|${repositoryName}|${permissionName}`. -/
def permKey (repositoryName descriptor permissionName : Str) : Str :=
  descriptor ++ [Char.ofNat 124] ++ repositoryName ++ [Char.ofNat 124] ++ permissionName

/-- The key of a candidate. -/
def candKey (repositoryName : Str) (c : Candidate) : Str :=
  permKey repositoryName c.descriptor c.permission

/-- The key of an emitted record. -/
def recordKey (r : PermRecord) : Str :=
  permKey r.repository r.descriptor r.permission

/-- The record pushed by `addPermission` for a candidate. -/
def mkRecord (repositoryName : Str) (c : Candidate) : PermRecord :=
  { repository := repositoryName
    identityType := strOr c.identity.subjectKind "Unknown".toList
    displayName := strOr c.identity.displayName (strOr c.identity.principalName c.descriptor)
    mailAddress := strOr c.identity.mailAddress []
    descriptor := c.descriptor
    permission := c.permission
    allow := c.allowDeny
    permissionSource := c.source
    isDirectAssignment := if c.isDirect then "Yes".toList else "No".toList }

/-- `addPermission` of part_003 (and, minus the `allow` column, of main.js):
push a record unless the key was already processed. -/
def addPermission (repositoryName : Str) (st : RunState) (c : Candidate) : RunState :=
  if candKey repositoryName c ∈ st.processedIdentities then st
  else
    { processedIdentities := candKey repositoryName c :: st.processedIdentities
      permissions := st.permissions ++ [mkRecord repositoryName c] }

/-- Feeding a sequence of candidates through `addPermission`. -/
def runCandidates (repositoryName : Str) (st : RunState) (cs : List Candidate) : RunState :=
  cs.foldl (addPermission repositoryName) st

/-- The initial state of one `getRepositoryPermissions` run. -/
def initState : RunState := ⟨[], []⟩

lemma recordKey_mkRecord (repositoryName : Str) (c : Candidate) :
    recordKey (mkRecord repositoryName c) = candKey repositoryName c := rfl

/-- Invariant of the run state: the key of every emitted record is in the
processed set, and no two emitted records share a key. -/
def StInv (st : RunState) : Prop :=
  (∀ r ∈ st.permissions, recordKey r ∈ st.processedIdentities) ∧
    List.Pairwise (fun a b => recordKey a ≠ recordKey b) st.permissions

lemma stInv_init : StInv initState := by
  constructor
  · intro r hr; simp [initState] at hr
  · simp [initState]

lemma stInv_addPermission (repositoryName : Str) (st : RunState) (c : Candidate)
    (h : StInv st) : StInv (addPermission repositoryName st c) := by
  unfold addPermission
  by_cases hk : candKey repositoryName c ∈ st.processedIdentities
  · simpa [hk] using h
  · simp only [hk, if_false]
    obtain ⟨h1, h2⟩ := h
    constructor
    · intro r hr
      simp only [List.mem_append, List.mem_singleton] at hr
      rcases hr with hr | hr
      · exact List.mem_cons_of_mem _ (h1 r hr)
      · subst hr
        simp [recordKey_mkRecord]
    · rw [List.pairwise_append]
      refine ⟨h2, by simp, ?_⟩
      intro a ha b hb
      simp only [List.mem_singleton] at hb
      subst hb
      rw [recordKey_mkRecord]
      intro heq
      exact hk (heq ▸ h1 a ha)

lemma stInv_runCandidates (repositoryName : Str) (cs : List Candidate) :
    ∀ st : RunState, StInv st → StInv (runCandidates repositoryName st cs) := by
  induction cs with
  | nil => intro st h; exact h
  | cons c cs ih =>
    intro st h
    exact ih _ (stInv_addPermission repositoryName st c h)

/-- The `normalizedIdentity` built in main.js and part_003 from a resolved
identity (`getIdentity` output has no provider/custom display-name fields, so
the JS fallback chain collapses to displayName, principalName, descriptor). -/
def normalizeIdentity (descriptor : Str) (identity : ResolvedIdentity) : IdentityLite :=
  { displayName := strOr identity.displayName (strOr identity.principalName descriptor)
    principalName := []
    mailAddress := strOr identity.mailAddress []
    subjectKind := strOr identity.subjectKind
      (if identity.isContainer then "group".toList else "user".toList) }

/-- The identity fields of an expanded group member, as passed to
`addPermission`. -/
def memberLite (m : Member) : IdentityLite :=
  { displayName := m.displayName
    principalName := []
    mailAddress := m.mailAddress
    subjectKind := m.subjectKind }

/-- The truncated display name main.js builds for an unresolvable descriptor
at project level. -/
def mainUnresolvedLite (descriptor : Str) : IdentityLite :=
  { displayName := "[Unresolved Group or User: ".toList ++ descriptor.take 60 ++ "...]".toList
    principalName := []
    mailAddress := []
    subjectKind := "unknown".toList }

/-- The truncated display name part_003 builds for an unresolvable
descriptor. -/
def part3UnresolvedLite (descriptor : Str) : IdentityLite :=
  { displayName := "[Unresolved: ".toList ++ descriptor.take 60 ++ "...]".toList
    principalName := []
    mailAddress := []
    subjectKind := "unknown".toList }

/-- The test `identity.isContainer` or subjectKind equal to the group literal. -/
def isGroupIdentity (identity : ResolvedIdentity) : Bool :=
  identity.isContainer || identity.subjectKind == "group".toList

/-- An emission candidate of the main.js script: the arguments of one
`addPermission` call there (main.js records carry no Allow/Deny column). -/
structure MainCandidate where
  descriptor : Str
  identity : IdentityLite
  permission : Str
  source : Str
  isDirect : Bool
  deriving DecidableEq

/-- The `addPermission` calls issued by the repository-level pass of
`getUsersWithBranchPolicyPermissions` in main.js for one ACE: for each
catalog entry, if the allow bit is set, resolve the identity; when resolution
fails nothing is emitted (the pass has no else branch); a group yields itself
plus its expanded members, a user yields one candidate. -/
def mainRepoAceCandidates (resolve : Str → Option ResolvedIdentity)
    (expand : ResolvedIdentity → List Member) (descriptor : Str) (ace : ACE) :
    List MainCandidate :=
  permissions_bits.flatMap fun pb =>
    if ace.allow &&& pb.2 ≠ 0 then
      match resolve descriptor with
      | none => []
      | some identity =>
        let normalized := normalizeIdentity descriptor identity
        if isGroupIdentity identity then
          { descriptor := descriptor, identity := normalized, permission := pb.1,
            source := "Direct Group Assignment".toList, isDirect := true } ::
            (expand identity).map fun m =>
              { descriptor := m.descriptor, identity := memberLite m, permission := pb.1,
                source := "Member of ".toList ++ normalized.displayName, isDirect := false }
        else
          [{ descriptor := descriptor, identity := normalized, permission := pb.1,
             source := "Direct User Assignment".toList, isDirect := true }]
    else []

/-- The `addPermission` calls issued by the project-level pass of
`getUsersWithBranchPolicyPermissions` in main.js for one ACE; unlike the
repository-level pass, an unresolvable identity is emitted with kind
`unknown`. -/
def mainProjAceCandidates (resolve : Str → Option ResolvedIdentity)
    (expand : ResolvedIdentity → List Member) (descriptor : Str) (ace : ACE) :
    List MainCandidate :=
  permissions_bits.flatMap fun pb =>
    if ace.allow &&& pb.2 ≠ 0 then
      match resolve descriptor with
      | none =>
        [{ descriptor := descriptor, identity := mainUnresolvedLite descriptor,
           permission := pb.1, source := "Project-level (unresolved)".toList,
           isDirect := false }]
      | some identity =>
        let normalized := normalizeIdentity descriptor identity
        if isGroupIdentity identity then
          { descriptor := descriptor, identity := normalized, permission := pb.1,
            source := "Project-level Group Assignment".toList, isDirect := false } ::
            (expand identity).map fun m =>
              { descriptor := m.descriptor, identity := memberLite m, permission := pb.1,
                source := "Member of ".toList ++ normalized.displayName ++
                  " (project-level)".toList, isDirect := false }
        else
          [{ descriptor := descriptor, identity := normalized, permission := pb.1,
             source := "Project-level User Assignment".toList, isDirect := false }]
    else []

/-- The unresolved candidate emitted by the repository-level pass of
part_003. -/
def part3UnresolvedCandidate (descriptor permissionName allowDeny : Str) : Candidate :=
  { descriptor := descriptor, identity := part3UnresolvedLite descriptor,
    permission := permissionName, allowDeny := allowDeny,
    source := "Direct Assignment (unresolved)".toList, isDirect := true }

/-- The `addPermission` calls issued by the repository-level pass of
`getRepositoryPermissions` in part_003 for one ACE: the inline deny/allow
decision selects the bits, and an unresolvable identity is still emitted with
kind `unknown` and a truncated-descriptor display name. -/
def part3RepoAceCandidates (resolve : Str → Option ResolvedIdentity)
    (expand : ResolvedIdentity → List Member) (descriptor : Str) (ace : ACE) :
    List Candidate :=
  permissionsBits.flatMap fun pb =>
    if decideRepoPermission ace.allow ace.deny pb.2 = .notSet then []
    else
      let allowDeny := if decideRepoPermission ace.allow ace.deny pb.2 = .deny
        then "Deny".toList else "Allow".toList
      match resolve descriptor with
      | none => [part3UnresolvedCandidate descriptor pb.1 allowDeny]
      | some identity =>
        let normalized := normalizeIdentity descriptor identity
        if isGroupIdentity identity then
          { descriptor := descriptor, identity := normalized, permission := pb.1,
            allowDeny := allowDeny, source := "Direct Group Assignment".toList,
            isDirect := true } ::
            (expand identity).map fun m =>
              { descriptor := m.descriptor, identity := memberLite m, permission := pb.1,
                allowDeny := allowDeny,
                source := "Member of ".toList ++ normalized.displayName, isDirect := false }
        else
          [{ descriptor := descriptor, identity := normalized, permission := pb.1,
             allowDeny := allowDeny, source := "Direct User Assignment".toList,
             isDirect := true }]

/-- The project-level pass of `getRepositoryPermissions` in part_003. -/
def part3ProjAceCandidates (resolve : Str → Option ResolvedIdentity)
    (expand : ResolvedIdentity → List Member) (descriptor : Str) (ace : ACE) :
    List Candidate :=
  permissionsBits.flatMap fun pb =>
    if decideRepoPermission ace.allow ace.deny pb.2 = .notSet then []
    else
      let allowDeny := if decideRepoPermission ace.allow ace.deny pb.2 = .deny
        then "Deny".toList else "Allow".toList
      match resolve descriptor with
      | none =>
        [{ descriptor := descriptor, identity := part3UnresolvedLite descriptor,
           permission := pb.1, allowDeny := allowDeny,
           source := "Project-level (unresolved, inherited)".toList, isDirect := false }]
      | some identity =>
        let normalized := normalizeIdentity descriptor identity
        if isGroupIdentity identity then
          { descriptor := descriptor, identity := normalized, permission := pb.1,
            allowDeny := allowDeny,
            source := "Project-level Group Assignment (inherited)".toList,
            isDirect := false } ::
            (expand identity).map fun m =>
              { descriptor := m.descriptor, identity := memberLite m, permission := pb.1,
                allowDeny := allowDeny,
                source := "Member of ".toList ++ normalized.displayName ++
                  " (inherited)".toList, isDirect := false }
        else
          [{ descriptor := descriptor, identity := normalized, permission := pb.1,
             allowDeny := allowDeny,
             source := "Project-level User Assignment (inherited)".toList,
             isDirect := false }]

/-- The candidates produced by iterating a list of ACLs and the
`acesDictionary`. -/
def aclCandidates (gen : Str → ACE → List Candidate) (acls : List ACL) : List Candidate :=
  acls.flatMap fun acl => acl.acesDictionary.flatMap fun e => gen e.1 e.2

/-- `getRepositoryPermissions` of part_003: repository-level ACLs first, then
project-level ACLs, all through the one `addPermission` closure; each fetch
is a response that may have failed. -/
def getRepositoryPermissions (resolve : Str → Option ResolvedIdentity)
    (expand : ResolvedIdentity → List Member) (repositoryName : Str)
    (repoAclsResponse projAclsResponse : Except ApiError (List ACL)) : List PermRecord :=
  let st1 := runCandidates repositoryName initState
    (aclCandidates (part3RepoAceCandidates resolve expand) (getACLs repoAclsResponse))
  let st2 := runCandidates repositoryName st1
    (aclCandidates (part3ProjAceCandidates resolve expand) (getACLs projAclsResponse))
  st2.permissions

lemma runCandidates_cons (R : Str) (st : RunState) (c : Candidate) (cs : List Candidate) :
    runCandidates R st (c :: cs) = runCandidates R (addPermission R st c) cs := rfl

lemma filter_key_eq_nil (st : RunState) (k : Str)
    (hInv : ∀ r ∈ st.permissions, recordKey r ∈ st.processedIdentities)
    (hk : k ∉ st.processedIdentities) :
    st.permissions.filter (fun r => recordKey r == k) = [] := by
  rw [List.filter_eq_nil_iff]
  intro r hr
  simp only [beq_iff_eq]
  intro heq
  exact hk (heq ▸ hInv r hr)

lemma addPermission_skip (R : Str) (st : RunState) (c : Candidate)
    (hc : candKey R c ∈ st.processedIdentities) : addPermission R st c = st := by
  simp [addPermission, hc]

lemma addPermission_push (R : Str) (st : RunState) (c : Candidate)
    (hc : candKey R c ∉ st.processedIdentities) :
    addPermission R st c =
      ⟨candKey R c :: st.processedIdentities, st.permissions ++ [mkRecord R c]⟩ := by
  simp [addPermission, hc]

lemma runCandidates_filter_blocked (R k : Str) :
    ∀ (cs : List Candidate) (st : RunState), k ∈ st.processedIdentities →
      (runCandidates R st cs).permissions.filter (fun r => recordKey r == k) =
        st.permissions.filter (fun r => recordKey r == k) := by
  intro cs
  induction cs with
  | nil => intro st _; rfl
  | cons c cs ih =>
    intro st hk
    rw [runCandidates_cons]
    by_cases hc : candKey R c ∈ st.processedIdentities
    · rw [addPermission_skip R st c hc]
      exact ih st hk
    · have hne : (recordKey (mkRecord R c) == k) = false := by
        rw [recordKey_mkRecord, beq_eq_false_iff_ne]
        intro heq
        exact hc (heq ▸ hk)
      rw [addPermission_push R st c hc, ih _ (List.mem_cons_of_mem _ hk)]
      simp [List.filter_append, hne]

lemma runCandidates_filter_first (R k : Str) :
    ∀ (cs : List Candidate) (st : RunState), k ∉ st.processedIdentities →
      (∀ r ∈ st.permissions, recordKey r ∈ st.processedIdentities) →
      (runCandidates R st cs).permissions.filter (fun r => recordKey r == k) =
        (match cs.find? (fun c => candKey R c == k) with
         | some c => [mkRecord R c]
         | none => []) := by
  intro cs
  induction cs with
  | nil =>
    intro st hk hInv
    simpa [runCandidates] using filter_key_eq_nil st k hInv hk
  | cons c cs ih =>
    intro st hk hInv
    rw [runCandidates_cons]
    by_cases hck : candKey R c = k
    · have hc : candKey R c ∉ st.processedIdentities := hck ▸ hk
      rw [addPermission_push R st c hc,
        runCandidates_filter_blocked R k cs _ (hck ▸ List.mem_cons_self _ _)]
      rw [List.find?_cons_of_pos _ (by simp [hck])]
      rw [List.filter_append, filter_key_eq_nil st k hInv hk]
      simp [recordKey_mkRecord, hck]
    · rw [List.find?_cons_of_neg _ (by simp [hck])]
      by_cases hc : candKey R c ∈ st.processedIdentities
      · rw [addPermission_skip R st c hc]
        exact ih st hk hInv
      · rw [addPermission_push R st c hc]
        refine ih _ ?_ ?_
        · intro hmem
          rcases List.mem_cons.mp hmem with h | h
          · exact hck h.symm
          · exact hk h
        · intro r hr
          rcases List.mem_append.mp hr with h | h
          · exact List.mem_cons_of_mem _ (hInv r h)
          · rcases List.mem_singleton.mp h with rfl
            rw [recordKey_mkRecord]
            exact List.mem_cons_self _ _

lemma runCandidates_append (R : Str) (st : RunState) (cs1 cs2 : List Candidate) :
    runCandidates R st (cs1 ++ cs2) = runCandidates R (runCandidates R st cs1) cs2 := by
  simp [runCandidates, List.foldl_append]

/-- C1: For every allow mask, deny mask, and permission bit, the access
decision function returns Deny iff the deny bit is fully set, else Allow iff
the allow bit is fully set, else NotSet — amended: this holds for
`Convert-PermissionMask` of the PowerShell scripts on all inputs, and for the
inline decision of part_003 on the bits of its own catalog (all powers of
two, where JS truthiness of `mask & bit` coincides with `== bit`); the
main.js emission path does not apply the rule (see the counterexample). -/
theorem decision_rule_holds_in_decision_functions :
    (∀ allow deny bit : Nat, convertPermissionMask allow deny bit = specDecide allow deny bit) ∧
    (∀ (allow deny : Nat), ∀ pb ∈ permissionsBits,
      decideRepoPermission allow deny pb.2 = specDecide allow deny pb.2) := by
  refine ⟨fun allow deny bit => rfl, ?_⟩
  intro allow deny pb hpb
  fin_cases hpb <;>
    first
    | exact decideRepo_eq_spec_pow2 allow deny 1
    | exact decideRepo_eq_spec_pow2 allow deny 2
    | exact decideRepo_eq_spec_pow2 allow deny 3
    | exact decideRepo_eq_spec_pow2 allow deny 4
    | exact decideRepo_eq_spec_pow2 allow deny 5
    | exact decideRepo_eq_spec_pow2 allow deny 6
    | exact decideRepo_eq_spec_pow2 allow deny 7
    | exact decideRepo_eq_spec_pow2 allow deny 8
    | exact decideRepo_eq_spec_pow2 allow deny 9
    | exact decideRepo_eq_spec_pow2 allow deny 10
    | exact decideRepo_eq_spec_pow2 allow deny 11
    | exact decideRepo_eq_spec_pow2 allow deny 12
    | exact decideRepo_eq_spec_pow2 allow deny 13
    | exact decideRepo_eq_spec_pow2 allow deny 14
    | exact decideRepo_eq_spec_pow2 allow deny 15

/-- C1 witness: the amended rule evaluated at the catalog bit 2 (Read) with
allow = 6 and deny = 2. -/
theorem decision_rule_witness :
    ("Read".toList, (2 : Nat)) ∈ permissionsBits ∧
      decideRepoPermission 6 2 2 = specDecide 6 2 2 :=
  ⟨by decide, decision_rule_holds_in_decision_functions.2 6 2 ("Read".toList, 2) (by decide)⟩

/-- The identity used to exercise the main.js emission path on concrete
inputs. -/
def probeUser : ResolvedIdentity :=
  { descriptor := "user:x".toList, displayName := "X".toList, mailAddress := [],
    principalName := [], subjectKind := "user".toList, isContainer := false,
    id := "x1".toList }

/-- C1 counterexample: with allow = 4, deny = 4 and bit 4 (Contribute), the
spec rule decides Deny, yet the main.js repository-level emission path emits
the permission as granted — deny does not take precedence in that emission
path. -/
theorem decision_rule_cex :
    specDecide 4 4 4 = Access.deny ∧
      mainRepoAceCandidates (fun _ => some probeUser) (fun _ => []) "user:x".toList
        ⟨4, 4⟩ ≠ [] := by
  constructor
  · decide
  · decide

/-- C2: no two records emitted into the final permission list of one
resource share the triple (resourceName, identityDescriptor,
permissionName): once a record for a triple is emitted, every later
candidate with the same triple is suppressed by the processed-keys set. -/
theorem no_duplicate_triples (resolve : Str → Option ResolvedIdentity)
    (expand : ResolvedIdentity → List Member) (repositoryName : Str)
    (repoAclsResponse projAclsResponse : Except ApiError (List ACL)) :
    List.Pairwise
      (fun r1 r2 => ¬ (r1.repository = r2.repository ∧ r1.descriptor = r2.descriptor ∧
        r1.permission = r2.permission))
      (getRepositoryPermissions resolve expand repositoryName repoAclsResponse
        projAclsResponse) := by
  have h := stInv_runCandidates repositoryName
    (aclCandidates (part3ProjAceCandidates resolve expand) (getACLs projAclsResponse)) _
    (stInv_runCandidates repositoryName
      (aclCandidates (part3RepoAceCandidates resolve expand) (getACLs repoAclsResponse))
      initState stInv_init)
  refine h.2.imp ?_
  intro a b hne ⟨h1, h2, h3⟩
  exact hne (by rw [recordKey, recordKey, h1, h2, h3])

/-- C6 counterexample: the main.js catalog is iterated in `Object.entries`
insertion order, whose bit sequence starts 32768, 128, ... — it is not
ascending by bit value. -/
theorem catalog_not_ascending :
    ¬ List.Sorted (· ≤ ·) (permissions_bits.map Prod.snd) := by decide

/-- C6 amended: the two JavaScript catalogs are iterated in a fixed, stable
order — the declaration (insertion) order shown here — so row emission is
deterministic, but that order is not ascending by bit value. -/
theorem catalogs_fixed_iteration_order :
    permissions_bits.map Prod.snd = [32768, 128, 4, 2048, 8, 8192, 4096] ∧
      permissionsBits.map Prod.snd =
        [8192, 2, 4, 8, 16, 32, 64, 128, 256, 512, 1024, 2048, 4096, 8192, 16384, 32768] := by
  decide

/-- C7 counterexample: in the part_003 catalog the two distinct names
Administer and Manage permissions are both assigned bit 8192. -/
theorem part3_catalog_not_injective :
    ("Administer".toList, (8192 : Nat)) ∈ permissionsBits ∧
      ("Manage permissions".toList, (8192 : Nat)) ∈ permissionsBits ∧
      "Administer".toList ≠ "Manage permissions".toList := by decide

/-- C7 amended: bit-to-name is injective in the main.js catalog and in the
PowerShell catalog (no two entries share a bit value); the part_003 catalog
aliases Administer and Manage permissions to the same bit. -/
theorem catalogs_injective_except_part3 :
    (permissions_bits.map Prod.snd).Nodup ∧ (gitPermissions.map Prod.fst).Nodup := by
  decide

/-- C9: a failed ACL fetch yields the empty ACL list, an empty ACL list
contributes zero candidates, and a run whose repository-level (or
project-level) fetch failed is identical to a run where that scope is empty
— the records of the other scope are still produced. -/
theorem acl_fetch_failure_recoverable :
    (∀ e, getACLs (Except.error e) = ([] : List ACL)) ∧
    (∀ gen : Str → ACE → List Candidate, aclCandidates gen [] = []) ∧
    (∀ resolve expand R e projResp,
      getRepositoryPermissions resolve expand R (Except.error e) projResp =
        getRepositoryPermissions resolve expand R (Except.ok []) projResp) ∧
    (∀ resolve expand R repoResp e,
      getRepositoryPermissions resolve expand R repoResp (Except.error e) =
        getRepositoryPermissions resolve expand R repoResp (Except.ok [])) :=
  ⟨fun _ => rfl, fun _ => rfl, fun _ _ _ _ _ => rfl, fun _ _ _ _ _ => rfl⟩

/-- C3: when the repository scope and the project scope both set the same
(identity, permission) key, exactly one record is emitted for that key and
it is the record built from the first repository-scope candidate with that
key — the decision of the project scope for the key is suppressed even when it
differs. -/
theorem repo_scope_wins (resolve : Str → Option ResolvedIdentity)
    (expand : ResolvedIdentity → List Member) (R : Str)
    (repoAclsResponse projAclsResponse : Except ApiError (List ACL)) (c0 : Candidate)
    (h : (aclCandidates (part3RepoAceCandidates resolve expand)
        (getACLs repoAclsResponse)).find? (fun c => candKey R c == candKey R c0) =
        some c0) :
    (getRepositoryPermissions resolve expand R repoAclsResponse
        projAclsResponse).filter (fun r => recordKey r == candKey R c0) =
      [mkRecord R c0] := by
  show (runCandidates R (runCandidates R initState _) _).permissions.filter _ = _
  rw [← runCandidates_append]
  rw [runCandidates_filter_first R (candKey R c0) _ initState (by simp [initState])
    (by simp [initState])]
  rw [List.find?_append, h]
  rfl

/-- The concrete descriptor, identity, resolver and ACL responses for the
inheritance-suppression scenario: repository scope grants Read (allow = 2),
project scope denies Read (deny = 2) for the same identity. -/
def aliceDescriptor : Str := "user:alice".toList

def aliceIdentity : ResolvedIdentity :=
  { descriptor := aliceDescriptor, displayName := "Alice".toList,
    mailAddress := "alice@example.com".toList,
    principalName := "alice@example.com".toList, subjectKind := "user".toList,
    isContainer := false, id := "a1".toList }

def aliceResolve : Str → Option ResolvedIdentity := fun _ => some aliceIdentity

def noExpand : ResolvedIdentity → List Member := fun _ => []

def aliceRepoResponse : Except ApiError (List ACL) :=
  .ok [⟨[(aliceDescriptor, ⟨2, 0⟩)]⟩]

def aliceProjResponse : Except ApiError (List ACL) :=
  .ok [⟨[(aliceDescriptor, ⟨0, 2⟩)]⟩]

def aliceRepoCandidate : Candidate :=
  { descriptor := aliceDescriptor,
    identity := normalizeIdentity aliceDescriptor aliceIdentity,
    permission := "Read".toList, allowDeny := "Allow".toList,
    source := "Direct User Assignment".toList, isDirect := true }

/-- C3 witness: in the concrete scenario (repository Allow on Read, project
Deny on Read for the same identity) the run emits exactly one record for the
key, the Allow record of the repository scope. -/
theorem repo_scope_wins_witness :
    (aclCandidates (part3RepoAceCandidates aliceResolve noExpand)
        (getACLs aliceRepoResponse)).find?
        (fun c => candKey "repo1".toList c == candKey "repo1".toList aliceRepoCandidate) =
      some aliceRepoCandidate ∧
    (getRepositoryPermissions aliceResolve noExpand "repo1".toList aliceRepoResponse
        aliceProjResponse).filter
        (fun r => recordKey r == candKey "repo1".toList aliceRepoCandidate) =
      [mkRecord "repo1".toList aliceRepoCandidate] :=
  ⟨by decide, repo_scope_wins aliceResolve noExpand "repo1".toList aliceRepoResponse
    aliceProjResponse aliceRepoCandidate (by decide)⟩

/-- C4 amended: in part_003, an ACE whose identity cannot be resolved still
yields exactly one candidate per explicitly set permission bit, with kind
unknown and a display name derived from the truncated descriptor; the
main.js repository-level pass instead drops such ACEs entirely (see the
counterexample). -/
theorem part3_unresolved_never_dropped (expand : ResolvedIdentity → List Member)
    (descriptor : Str) (ace : ACE) :
    part3RepoAceCandidates (fun _ => none) expand descriptor ace =
      (permissionsBits.filter fun pb =>
          ¬ decideRepoPermission ace.allow ace.deny pb.2 = Access.notSet).map
        fun pb => part3UnresolvedCandidate descriptor pb.1
          (if decideRepoPermission ace.allow ace.deny pb.2 = Access.deny
            then "Deny".toList else "Allow".toList) := by
  unfold part3RepoAceCandidates
  generalize permissionsBits = l
  induction l with
  | nil => rfl
  | cons pb l ih =>
    by_cases h : decideRepoPermission ace.allow ace.deny pb.2 = Access.notSet
    · simpa [h] using ih
    · simpa [h] using ih

/-- C4 counterexample: an ACE with allow = 4 (the Contribute bit, present in
the main.js catalog) and an unresolvable descriptor produces zero records in
the main.js repository-level pass — the claimed one-record-per-set-bit-at-any-scope behaviour fails there. -/
theorem mainjs_repo_unresolved_dropped :
    mainRepoAceCandidates (fun _ => none) (fun _ => []) "desc:unknown".toList ⟨4, 0⟩ =
      [] ∧
    ("Contribute".toList, (4 : Nat)) ∈ permissions_bits ∧ (4 : Nat) &&& 4 ≠ 0 := by
  refine ⟨by decide, by decide, by decide⟩

lemma mem_mainRepoAceCandidates_permission {resolve : Str → Option ResolvedIdentity}
    {expand : ResolvedIdentity → List Member} {descriptor : Str} {ace : ACE}
    {c : MainCandidate} (h : c ∈ mainRepoAceCandidates resolve expand descriptor ace) :
    ∃ pb ∈ permissions_bits, c.permission = pb.1 ∧ ace.allow &&& pb.2 ≠ 0 := by
  unfold mainRepoAceCandidates at h
  rw [List.mem_flatMap] at h
  obtain ⟨pb, hpb, hc⟩ := h
  refine ⟨pb, hpb, ?_⟩
  by_cases hbit : ace.allow &&& pb.2 ≠ 0
  · refine ⟨?_, hbit⟩
    rw [if_pos hbit] at hc
    cases hres : resolve descriptor with
    | none => rw [hres] at hc; simp at hc
    | some identity =>
      rw [hres] at hc
      by_cases hg : isGroupIdentity identity
      · simp only [hg, if_true] at hc
        rcases List.mem_cons.mp hc with rfl | hm
        · rfl
        · obtain ⟨m, _, rfl⟩ := List.mem_map.mp hm
          rfl
      · simp only [hg, if_false] at hc
        rcases List.mem_singleton.mp hc with rfl
        rfl
  · rw [if_neg hbit] at hc
    simp at hc

lemma mem_mainProjAceCandidates_permission {resolve : Str → Option ResolvedIdentity}
    {expand : ResolvedIdentity → List Member} {descriptor : Str} {ace : ACE}
    {c : MainCandidate} (h : c ∈ mainProjAceCandidates resolve expand descriptor ace) :
    ∃ pb ∈ permissions_bits, c.permission = pb.1 ∧ ace.allow &&& pb.2 ≠ 0 := by
  unfold mainProjAceCandidates at h
  rw [List.mem_flatMap] at h
  obtain ⟨pb, hpb, hc⟩ := h
  refine ⟨pb, hpb, ?_⟩
  by_cases hbit : ace.allow &&& pb.2 ≠ 0
  · refine ⟨?_, hbit⟩
    rw [if_pos hbit] at hc
    cases hres : resolve descriptor with
    | none =>
      rw [hres] at hc
      rcases List.mem_singleton.mp hc with rfl
      rfl
    | some identity =>
      rw [hres] at hc
      by_cases hg : isGroupIdentity identity
      · simp only [hg, if_true] at hc
        rcases List.mem_cons.mp hc with rfl | hm
        · rfl
        · obtain ⟨m, _, rfl⟩ := List.mem_map.mp hm
          rfl
      · simp only [hg, if_false] at hc
        rcases List.mem_singleton.mp hc with rfl
        rfl
  · rw [if_neg hbit] at hc
    simp at hc

/-- C10: in the main.js branch-policy script, both emission passes are
independent of the ACE deny mask, and the permission of every emitted
candidate comes from a catalog entry whose bit is set in the ACE allow mask — so no
record is ever emitted on account of a deny bit, and no Deny decision is
ever produced. -/
theorem mainjs_emits_allow_bits_only :
    (∀ (resolve : Str → Option ResolvedIdentity)
      (expand : ResolvedIdentity → List Member) (descriptor : Str) (allow d1 d2 : Nat),
      mainRepoAceCandidates resolve expand descriptor ⟨allow, d1⟩ =
          mainRepoAceCandidates resolve expand descriptor ⟨allow, d2⟩ ∧
        mainProjAceCandidates resolve expand descriptor ⟨allow, d1⟩ =
          mainProjAceCandidates resolve expand descriptor ⟨allow, d2⟩) ∧
    (∀ (resolve : Str → Option ResolvedIdentity)
      (expand : ResolvedIdentity → List Member) (descriptor : Str) (ace : ACE)
      (c : MainCandidate),
      c ∈ mainRepoAceCandidates resolve expand descriptor ace ++
          mainProjAceCandidates resolve expand descriptor ace →
      ∃ pb ∈ permissions_bits, c.permission = pb.1 ∧ ace.allow &&& pb.2 ≠ 0) := by
  refine ⟨fun _ _ _ _ _ _ => ⟨rfl, rfl⟩, ?_⟩
  intro resolve expand descriptor ace c hc
  rcases List.mem_append.mp hc with h | h
  · exact mem_mainRepoAceCandidates_permission h
  · exact mem_mainProjAceCandidates_permission h

/-- The candidate main.js emits for the probe user with allow = 4. -/
def probeCandidate : MainCandidate :=
  { descriptor := "user:x".toList,
    identity := normalizeIdentity "user:x".toList probeUser,
    permission := "Contribute".toList, source := "Direct User Assignment".toList,
    isDirect := true }

/-- C10 witness: the permission of the emitted probe candidate is backed by a
catalog entry whose bit is set in the allow mask 4. -/
theorem mainjs_emits_allow_bits_only_witness :
    ∃ pb ∈ permissions_bits, probeCandidate.permission = pb.1 ∧
      (4 : Nat) &&& pb.2 ≠ 0 :=
  mainjs_emits_allow_bits_only.2 (fun _ => some probeUser) (fun _ => [])
    "user:x".toList ⟨4, 0⟩ probeCandidate (by decide)

/-- An identity record held by the identity service, as consumed by
`expandGroupMembers`: its id, resolved display fields, container flag, and
the ids returned by the members endpoint. -/
structure IdentityNode where
  id : Str
  descriptor : Str
  displayName : Str
  mailAddress : Str
  isContainer : Bool
  memberIds : List Str
  deriving DecidableEq

/-- The finite universe of identities known to the service. -/
abbrev Graph := List IdentityNode

/-- `getIdentityById`: look an identity up by id; unknown ids resolve to
nothing. -/
def getIdentityById (g : Graph) (identityId : Str) : Option IdentityNode :=
  g.find? (fun n => n.id == identityId)

/-- `getGroupMembers`: the members endpoint; an identity without an id
contributes no members. -/
def getGroupMembers (_g : Graph) (identity : IdentityNode) : List Str :=
  if identity.id = [] then [] else identity.memberIds

/-- The user object `expandGroupMembers` pushes for a non-container
member. -/
def memberOfIdentity (mi : IdentityNode) (memberId : Str) : Member :=
  { descriptor := strOr mi.descriptor memberId
    displayName := strOr mi.displayName memberId
    mailAddress := mi.mailAddress
    subjectKind := "user".toList
    id := memberId }

/-- The member loop of `expandGroupMembers`: look each member id up, skip
unresolvable ones, recurse (through `expandF`, the surrounding function at
one less stack level) into containers, push users; the visited set is
threaded through in order, as the shared JS `Set` is. -/
def expandLoop (g : Graph)
    (expandF : IdentityNode → List Str → Option (List Member × List Str)) :
    List Str → List Str → Option (List Member × List Str)
  | [], visited => some ([], visited)
  | memberId :: rest, visited =>
    if memberId = [] then expandLoop g expandF rest visited
    else
      match getIdentityById g memberId with
      | none => expandLoop g expandF rest visited
      | some mi =>
        if mi.isContainer then
          match expandF mi visited with
          | none => none
          | some (subMembers, v1) =>
            match expandLoop g expandF rest v1 with
            | none => none
            | some (more, v2) => some (subMembers ++ more, v2)
        else
          match expandLoop g expandF rest visited with
          | none => none
          | some (more, v1) => some (memberOfIdentity mi memberId :: more, v1)

/-- `expandGroupMembers` of main.js and part_003, with an explicit
call-stack budget: `none` means the recursion would have needed a deeper
stack. An identity with no id or an already-visited id short-circuits with
no members. -/
def expandFuel : Nat → Graph → IdentityNode → List Str → Option (List Member × List Str)
  | 0, _, _, _ => none
  | fuel + 1, g, identity, visited =>
    if identity.id = [] ∨ identity.id ∈ visited then some ([], visited)
    else expandLoop g (fun mi v => expandFuel fuel g mi v) (getGroupMembers g identity)
      (identity.id :: visited)

/-- The number of identity ids in the graph that are not yet visited — the
quantity that bounds the recursion depth. -/
def unvisitedCount (g : Graph) (visited : List Str) : Nat :=
  ((g.map IdentityNode.id).filter (fun i => i ∉ visited)).length

lemma length_filter_mono {α : Type _} {p q : α → Bool}
    (h : ∀ a, p a = true → q a = true) :
    ∀ l : List α, (l.filter p).length ≤ (l.filter q).length := by
  intro l
  induction l with
  | nil => simp
  | cons a l ih =>
    by_cases hp : p a = true
    · rw [List.filter_cons_of_pos hp, List.filter_cons_of_pos (h a hp)]
      simpa using ih
    · rw [List.filter_cons_of_neg (by simpa using hp)]
      by_cases hq : q a = true
      · rw [List.filter_cons_of_pos hq]
        exact le_trans ih (by simp)
      · rw [List.filter_cons_of_neg (by simpa using hq)]
        exact ih

lemma unvisited_mono (g : Graph) {v1 v2 : List Str} (h : ∀ x ∈ v1, x ∈ v2) :
    unvisitedCount g v2 ≤ unvisitedCount g v1 := by
  refine length_filter_mono ?_ _
  intro a ha
  simp only [decide_eq_true_eq] at ha ⊢
  exact fun hm => ha (h a hm)

lemma unvisited_cons_lt (g : Graph) {id0 : Str} {visited : List Str}
    (hg : id0 ∈ g.map IdentityNode.id) (hv : id0 ∉ visited) :
    unvisitedCount g (id0 :: visited) < unvisitedCount g visited := by
  unfold unvisitedCount
  have hmono : ∀ l : List Str,
      (l.filter (fun i => i ∉ id0 :: visited)).length ≤
        (l.filter (fun i => i ∉ visited)).length := by
    intro l
    refine length_filter_mono ?_ l
    intro a ha
    simp only [decide_eq_true_eq, List.mem_cons, not_or] at ha ⊢
    exact ha.2
  generalize g.map IdentityNode.id = l at hg ⊢
  induction l with
  | nil => cases hg
  | cons a l ih =>
    rcases List.mem_cons.mp hg with rfl | hmem
    · rw [List.filter_cons_of_neg (by simp), List.filter_cons_of_pos (by simpa using hv)]
      exact Nat.lt_succ_of_le (hmono l)
    · by_cases hav : a ∈ visited
      · rw [List.filter_cons_of_neg (by simp [hav]),
          List.filter_cons_of_neg (by simpa using hav)]
        exact ih hmem
      · by_cases ha0 : a = id0
        · subst ha0
          rw [List.filter_cons_of_neg (by simp), List.filter_cons_of_pos (by simpa using hav)]
          exact Nat.lt_succ_of_le (hmono l)
        · rw [List.filter_cons_of_pos (by simp [hav, ha0]),
            List.filter_cons_of_pos (by simpa using hav)]
          exact Nat.succ_lt_succ (ih hmem)

lemma expandLoop_total (g : Graph)
    (expandF : IdentityNode → List Str → Option (List Member × List Str)) (C : Nat)
    (hF : ∀ mi ∈ g, ∀ v : List Str, unvisitedCount g v < C →
      ∃ p, expandF mi v = some p ∧ ∀ x ∈ v, x ∈ p.2) :
    ∀ (ms : List Str) (visited : List Str), unvisitedCount g visited < C →
      ∃ p, expandLoop g expandF ms visited = some p ∧ ∀ x ∈ visited, x ∈ p.2 := by
  intro ms
  induction ms with
  | nil => exact fun visited _ => ⟨([], visited), rfl, fun x hx => hx⟩
  | cons memberId rest ih =>
    intro visited hv
    by_cases hid : memberId = []
    · obtain ⟨p, hp, hsub⟩ := ih visited hv
      exact ⟨p, by simp only [expandLoop, if_pos hid]; exact hp, hsub⟩
    · cases hfind : getIdentityById g memberId with
      | none =>
        obtain ⟨p, hp, hsub⟩ := ih visited hv
        refine ⟨p, ?_, hsub⟩
        simp only [expandLoop, if_neg hid, hfind]
        exact hp
      | some mi =>
        have hmi : mi ∈ g := List.mem_of_find?_eq_some hfind
        by_cases hcont : mi.isContainer
        · obtain ⟨⟨sub1, v1⟩, hp1, hsub1⟩ := hF mi hmi visited hv
          have hv1 : unvisitedCount g v1 < C :=
            lt_of_le_of_lt (unvisited_mono g hsub1) hv
          obtain ⟨⟨more, v2⟩, hp2, hsub2⟩ := ih v1 hv1
          refine ⟨(sub1 ++ more, v2), ?_, fun x hx => hsub2 x (hsub1 x hx)⟩
          simp only [expandLoop, if_neg hid, hfind, hcont, if_true, hp1, hp2]
        · obtain ⟨⟨more, v1⟩, hp1, hsub1⟩ := ih visited hv
          refine ⟨(memberOfIdentity mi memberId :: more, v1), ?_, hsub1⟩
          have hcf : mi.isContainer = false := by simpa using hcont
          simp [expandLoop, hid, hfind, hcf, hp1]

lemma expandFuel_total (g : Graph) :
    ∀ fuel : Nat, ∀ n ∈ g, ∀ visited : List Str, unvisitedCount g visited < fuel →
      ∃ p, expandFuel fuel g n visited = some p ∧ ∀ x ∈ visited, x ∈ p.2 := by
  intro fuel
  induction fuel with
  | zero => exact fun n _ visited hv => absurd hv (Nat.not_lt_zero _)
  | succ fuel ih =>
    intro n hn visited hv
    by_cases hguard : n.id = [] ∨ n.id ∈ visited
    · exact ⟨([], visited), by simp only [expandFuel, if_pos hguard], fun x hx => hx⟩
    · have hne : ¬ n.id = [] := fun h => hguard (Or.inl h)
      have hnv : n.id ∉ visited := fun h => hguard (Or.inr h)
      have hmem : n.id ∈ g.map IdentityNode.id := List.mem_map_of_mem _ hn
      have hlt : unvisitedCount g (n.id :: visited) < fuel := by
        have h1 := unvisited_cons_lt g hmem hnv
        omega
      obtain ⟨p, hp, hsub⟩ := expandLoop_total g (fun mi v => expandFuel fuel g mi v) fuel
        (fun mi hmi v hv' => ih mi hmi v hv') (getGroupMembers g n) (n.id :: visited) hlt
      refine ⟨p, ?_, fun x hx => hsub x (List.mem_cons_of_mem _ hx)⟩
      simp only [expandFuel, if_neg hguard]
      exact hp

/-- C5 amended: `expandGroupMembers` terminates on every membership graph,
including cyclic ones — any call-stack budget exceeding the number of
not-yet-visited graph identities suffices, because the visited set
short-circuits re-entered groups. (The "each distinct user at most once"
half of the claim is false: see the counterexample.) -/
theorem expandGroupMembers_terminates (g : Graph) (n : IdentityNode)
    (visited : List Str) (fuel : Nat) (hn : n ∈ g)
    (hfuel : unvisitedCount g visited < fuel) :
    ∃ p, expandFuel fuel g n visited = some p := by
  obtain ⟨p, hp, _⟩ := expandFuel_total g fuel n hn visited hfuel
  exact ⟨p, hp⟩

/-- A two-group cycle: A contains B and B contains A. -/
def groupA : IdentityNode :=
  { id := "a".toList, descriptor := "vssgp.A".toList, displayName := "Group A".toList,
    mailAddress := [], isContainer := true, memberIds := ["b".toList] }

def groupB : IdentityNode :=
  { id := "b".toList, descriptor := "vssgp.B".toList, displayName := "Group B".toList,
    mailAddress := [], isContainer := true, memberIds := ["a".toList] }

def cyclicGraph : Graph := [groupA, groupB]

/-- C5 witness: on the cyclic two-group graph, expansion of A with stack
budget 3 returns a result instead of running forever. -/
theorem expandGroupMembers_terminates_witness :
    groupA ∈ cyclicGraph ∧ unvisitedCount cyclicGraph [] < 3 ∧
      ∃ p, expandFuel 3 cyclicGraph groupA [] = some p :=
  ⟨by decide, by decide,
    expandGroupMembers_terminates cyclicGraph groupA [] 3 (by decide) (by decide)⟩

/-- The diamond graph: group D contains user U and group E; group E also
contains user U. -/
def userU : IdentityNode :=
  { id := "u".toList, descriptor := "user:u".toList, displayName := "User U".toList,
    mailAddress := [], isContainer := false, memberIds := [] }

def groupD : IdentityNode :=
  { id := "d".toList, descriptor := "vssgp.D".toList, displayName := "Group D".toList,
    mailAddress := [], isContainer := true, memberIds := ["u".toList, "e".toList] }

def groupE : IdentityNode :=
  { id := "e".toList, descriptor := "vssgp.E".toList, displayName := "Group E".toList,
    mailAddress := [], isContainer := true, memberIds := ["u".toList] }

def diamondGraph : Graph := [groupD, groupE, userU]

/-- C5 counterexample: expanding group D in the diamond graph returns user U
twice — once directly and once through group E — so the result does not
contain each distinct user at most once (the visited set tracks groups, not
users). -/
theorem expand_returns_duplicate_user :
    ((expandFuel 10 diamondGraph groupD []).map fun p => p.1.map Member.id) =
      some ["u".toList, "u".toList] := by decide

/-- JavaScript `split` on a single-character separator. -/
def splitOnChar (c : Char) : Str → List Str
  | [] => [[]]
  | x :: xs =>
    let r := splitOnChar c xs
    if x = c then [] :: r
    else (x :: r.headD []) :: r.tail

/-- JavaScript `includes`: naive substring search. -/
def hasSub (needle : Str) : Str → Bool
  | [] => needle.isEmpty
  | x :: xs => needle.isPrefixOf (x :: xs) || hasSub needle xs

lemma isPrefixOf_append {n l t : Str} (h : n.isPrefixOf l = true) :
    n.isPrefixOf (l ++ t) = true := by
  induction n generalizing l with
  | nil => simp [List.isPrefixOf]
  | cons a n ih =>
    cases l with
    | nil => simp [List.isPrefixOf] at h
    | cons b l =>
      simp only [List.cons_append, List.isPrefixOf, Bool.and_eq_true, beq_iff_eq] at h ⊢
      exact ⟨h.1, ih h.2⟩

lemma hasSub_nil_needle : ∀ l : Str, hasSub [] l = true := by
  intro l
  cases l <;> simp [hasSub, List.isPrefixOf]

lemma hasSub_append (needle h t : Str) (hh : hasSub needle h = true) :
    hasSub needle (h ++ t) = true := by
  induction h with
  | nil =>
    simp only [hasSub, List.isEmpty_iff] at hh
    rw [hh, List.nil_append]
    exact hasSub_nil_needle t
  | cons x xs ih =>
    simp only [hasSub, Bool.or_eq_true] at hh
    rcases hh with hp | hs
    · simp only [List.cons_append, hasSub, Bool.or_eq_true]
      exact Or.inl (by simpa using isPrefixOf_append (l := x :: xs) hp)
    · simp only [List.cons_append, hasSub, Bool.or_eq_true]
      exact Or.inr (ih hs)

lemma splitOnChar_no_sep (c : Char) : ∀ s : Str, c ∉ s → splitOnChar c s = [s] := by
  intro s
  induction s with
  | nil => intro _; rfl
  | cons x xs ih =>
    intro h
    have hx : ¬ x = c := fun he => h (he ▸ List.mem_cons_self _ _)
    have hxs := ih (fun hm => h (List.mem_cons_of_mem _ hm))
    simp [splitOnChar, hx, hxs]

lemma splitOnChar_append_sep (c : Char) (pre suf : Str) (hp : c ∉ pre) (hs : c ∉ suf) :
    splitOnChar c (pre ++ c :: suf) = [pre, suf] := by
  induction pre with
  | nil => simp [splitOnChar, splitOnChar_no_sep c suf hs]
  | cons x xs ih =>
    have hx : ¬ x = c := fun he => hp (he ▸ List.mem_cons_self _ _)
    have hxs := ih (fun hm => hp (List.mem_cons_of_mem _ hm))
    simp [splitOnChar, hx, hxs]

/-- A raw identity record returned by the identities API or cached in the
full identity list. -/
structure RawIdentity where
  descriptor : Str
  providerDisplayName : Str
  customDisplayName : Str
  displayName : Str
  account : Str
  mail : Str
  isContainer : Bool
  id : Str
  deriving DecidableEq

/-- The normalization main.js applies to a raw identity record. -/
def normalizeRaw (identity : RawIdentity) : ResolvedIdentity :=
  { descriptor := identity.descriptor
    displayName := strOr identity.providerDisplayName
      (strOr identity.customDisplayName identity.displayName)
    mailAddress := strOr identity.account (strOr identity.mail [])
    principalName := strOr identity.account identity.displayName
    subjectKind := if identity.isContainer then "group".toList else "user".toList
    isContainer := identity.isContainer
    id := identity.id }

/-- The substring `getIdentity` sniffs for a claims-style descriptor. -/
def claimsToken : Str := "ClaimsIdentity".toList

/-- The backslash delimiter of claims-style descriptors. -/
def backslashChar : Char := Char.ofNat 92

/-- The identities-API leg of `getIdentity`, including the catch branch: on
an error, a descriptor containing a backslash is parsed into a display name
from its last segment, otherwise resolution fails. -/
def getIdentityApi (identitiesApi : Str → Except ApiError (List RawIdentity))
    (descriptor : Str) : Option ResolvedIdentity :=
  match identitiesApi descriptor with
  | .ok (identity :: _) => some (normalizeRaw identity)
  | .ok [] => none
  | .error _ =>
    if hasSub [backslashChar] descriptor then
      let parts := splitOnChar backslashChar descriptor
      let displayName := parts.getLastD []
      some { descriptor := descriptor, displayName := displayName
             mailAddress := if hasSub "@".toList displayName then displayName else []
             principalName := displayName, subjectKind := "user".toList
             isContainer := false, id := [] }
    else none

/-- The non-claims legs of `getIdentity`: TeamFoundation descriptors are
matched against the cached full identity list first, then the identities API
is queried. -/
def getIdentityLookup (allIdentities : List RawIdentity)
    (identitiesApi : Str → Except ApiError (List RawIdentity))
    (descriptor : Str) : Option ResolvedIdentity :=
  if hasSub "TeamFoundation.Identity".toList descriptor ||
      hasSub "TeamFoundation.ServiceIdentity".toList descriptor then
    match allIdentities.find? (fun i => i.descriptor == descriptor) with
    | some m => some (normalizeRaw m)
    | none => getIdentityApi identitiesApi descriptor
  else getIdentityApi identitiesApi descriptor

/-- `getIdentity` of main.js: a claims-style descriptor containing a
backslash is parsed directly into a user identity whose display name, mail
address and principal name are the embedded segment after the first
backslash; all other descriptors go through the lookup legs. -/
def getIdentity (allIdentities : List RawIdentity)
    (identitiesApi : Str → Except ApiError (List RawIdentity))
    (descriptor : Str) : Option ResolvedIdentity :=
  if hasSub claimsToken descriptor then
    let parts := splitOnChar backslashChar descriptor
    if 1 < parts.length then
      let email := parts[1]!
      some { descriptor := descriptor, displayName := email, mailAddress := email
             principalName := email, subjectKind := "user".toList
             isContainer := false, id := descriptor }
    else getIdentityLookup allIdentities identitiesApi descriptor
  else getIdentityLookup allIdentities identitiesApi descriptor

/-- C8: a claims-style descriptor with an embedded principal name (the
claims token in its prefix and a backslash-delimited suffix) is parsed
directly: resolution returns a user whose display name and mail address are
the embedded email, and the result does not depend on the cached identity
list or on the identities API — no external call is consulted. -/
theorem claims_descriptor_parsed_locally (allIdentities : List RawIdentity)
    (identitiesApi : Str → Except ApiError (List RawIdentity)) (pre email : Str)
    (hclaims : hasSub claimsToken pre = true)
    (hp : backslashChar ∉ pre) (he : backslashChar ∉ email) :
    getIdentity allIdentities identitiesApi (pre ++ backslashChar :: email) =
      some { descriptor := pre ++ backslashChar :: email, displayName := email
             mailAddress := email, principalName := email
             subjectKind := "user".toList, isContainer := false
             id := pre ++ backslashChar :: email } := by
  unfold getIdentity
  rw [if_pos (hasSub_append claimsToken pre (backslashChar :: email) hclaims)]
  rw [splitOnChar_append_sep backslashChar pre email hp he]
  rfl

/-- C8 witness: a concrete claims descriptor with an embedded email resolves
locally to that email, with the API collaborator a function that always
fails. -/
theorem claims_descriptor_parsed_locally_witness :
    hasSub claimsToken "Microsoft.IdentityModel.Claims.ClaimsIdentity;1".toList = true ∧
      getIdentity [] (fun _ => .error ⟨[]⟩)
          ("Microsoft.IdentityModel.Claims.ClaimsIdentity;1".toList ++
            backslashChar :: "alice@example.com".toList) =
        some { descriptor := "Microsoft.IdentityModel.Claims.ClaimsIdentity;1".toList ++
                 backslashChar :: "alice@example.com".toList
               displayName := "alice@example.com".toList
               mailAddress := "alice@example.com".toList
               principalName := "alice@example.com".toList
               subjectKind := "user".toList, isContainer := false
               id := "Microsoft.IdentityModel.Claims.ClaimsIdentity;1".toList ++
                 backslashChar :: "alice@example.com".toList } :=
  ⟨by decide,
    claims_descriptor_parsed_locally [] (fun _ => .error ⟨[]⟩)
      "Microsoft.IdentityModel.Claims.ClaimsIdentity;1".toList
      "alice@example.com".toList (by decide) (by decide) (by decide)⟩

end GetBranchPolicies
